import Mathlib

/-!
# Verification model of the kannel gwlib generic dynamic list

The repository ships the interface `gwlib/list.h` of a generic, dynamic,
thread-safe list used for producer-consumer workflows.  Only the header is
part of the sources, so the operations below are modelled from the
specification.  Every single operation of the original is atomic (it runs
under the container's internal lock for its whole duration), so a sequential
state-transformer semantics is a faithful model of any serialized sequence
of calls on one container; the lock and the condition signal themselves have
no effect on the observable sequential state and are not part of the state
model.  Fatal outcomes (precondition violations, which abort the process)
are modelled as `none`.
-/

namespace Gwlist

/-- A stored item reference.  The C list stores `void *` pointers; a pointer
is modelled as a natural number, with `0` playing the role of the NULL
pointer (which may never be stored in the list). -/
abbrev Item := Nat

/-- Modelled from the spec: the container (`struct List`, whose definition is
not in the shipped sources) owns an ordered, resizable buffer of item
references and a producer counter.  `length` is derived: it is the number of
stored references. -/
structure GwList where
  items : List Item
  producer_count : Nat
  deriving DecidableEq, Repr

/-- Modelled from the spec: `list_create` returns an empty container with no
registered producers. -/
def list_create : GwList := ⟨[], 0⟩

/-- Modelled from the spec: `list_len` returns the current number of items in
the list (an atomic read). -/
def list_len (l : GwList) : Nat := l.items.length

/-- Modelled from the spec: `list_append` adds a new item to the end of the
list; a NULL item is a fatal precondition violation, modelled as `none`. -/
def list_append (l : GwList) (item : Item) : Option GwList :=
  if item = 0 then none else some { l with items := l.items.concat item }

/-- Modelled from the spec: `list_insert` inserts an item so that it becomes
item number `pos`; the valid range for `pos` is `[0, length]` inclusive, and
an out-of-range `pos` or a NULL item is a fatal precondition violation,
modelled as `none`. -/
def list_insert (l : GwList) (pos : Nat) (item : Item) : Option GwList :=
  if item = 0 then none
  else if pos ≤ l.items.length then
    some { l with items := l.items.take pos ++ item :: l.items.drop pos }
  else none

/-- Modelled from the spec: `list_delete` removes `count` consecutive items
starting at position `pos`, dropping the references without destroying the
items; a range not fully inside the sequence is a fatal precondition
violation, modelled as `none`. -/
def list_delete (l : GwList) (pos count : Nat) : Option GwList :=
  if pos + count ≤ l.items.length then
    some { l with items := l.items.take pos ++ l.items.drop (pos + count) }
  else none

/-- Modelled from the spec: the index-ascending traversal shared by
`list_delete_all`, `list_extract_all` and `list_search_all` (whose common
implementation is not in the shipped sources).  It walks the sequence once
and splits it into the matching items and the remaining items, each kept in
original relative order. -/
def extractPass (p : Item → Bool) : List Item → List Item × List Item
  | [] => ([], [])
  | x :: rest =>
    let mr := extractPass p rest
    if p x then (x :: mr.1, mr.2) else (mr.1, x :: mr.2)

/-- Modelled from the spec: `list_delete_all` removes every item matching the
pattern under `cmp`, keeping the remaining items in relative order; the
removed items themselves are not destroyed. -/
def list_delete_all (l : GwList) (pat : Item) (cmp : Item → Item → Bool) : GwList :=
  { l with items := (extractPass (fun x => cmp x pat) l.items).2 }

/-- Modelled from the spec: `list_delete_equal` removes every item whose
pointer value is exactly `item` (reference identity, not value equality). -/
def list_delete_equal (l : GwList) (item : Item) : GwList :=
  list_delete_all l item (fun a b => a == b)

/-- Modelled from the spec: `list_get` returns the item at position `pos`;
an out-of-range `pos` is a fatal precondition violation, modelled as
`none`. -/
def list_get (l : GwList) (pos : Nat) : Option Item := l.items[pos]?

/-- Modelled from the spec: `list_extract_first` removes and returns the
first item of the list, or returns the NULL sentinel (`none`) and leaves the
container untouched when the list is empty; it never blocks. -/
def list_extract_first (l : GwList) : Option Item × GwList :=
  match l.items with
  | [] => (none, l)
  | x :: rest => (some x, { l with items := rest })

/-- Modelled from the spec: `list_extract_all` removes every matching item
and returns them as a new list preserving relative order; it returns the
NULL sentinel (`none`) and leaves the container untouched when nothing
matches (no new container is allocated in that case). -/
def list_extract_all (l : GwList) (pat : Item) (cmp : Item → Item → Bool) :
    Option GwList × GwList :=
  match extractPass (fun x => cmp x pat) l.items with
  | ([], _) => (none, l)
  | (m, r) => (some ⟨m, 0⟩, { l with items := r })

/-- Modelled from the spec: `list_search` returns the first item
(index-ascending) matching the pattern under `cmp`, or the not-found
sentinel (`none`); it does not disturb the list. -/
def list_search (l : GwList) (pat : Item) (cmp : Item → Item → Bool) : Option Item :=
  l.items.find? (fun x => cmp x pat)

/-- Modelled from the spec: `list_search_all` returns a new list holding
every matching item in original order without disturbing the source, or the
NULL sentinel (`none`) when no item matches. -/
def list_search_all (l : GwList) (pat : Item) (cmp : Item → Item → Bool) :
    Option GwList :=
  match (extractPass (fun x => cmp x pat) l.items).1 with
  | [] => none
  | m => some ⟨m, 0⟩

/-- Modelled from the spec: `list_cat` puts the two lists one after another
and returns the united list; the second list is destroyed in the process, so
its contents live on only in the returned list. -/
def list_cat (l1 l2 : GwList) : GwList :=
  { l1 with items := l1.items ++ l2.items }

/-- Modelled from the spec: `list_add_producer` registers a new producer,
atomically incrementing the producer counter. -/
def list_add_producer (l : GwList) : GwList :=
  { l with producer_count := l.producer_count + 1 }

/-- Modelled from the spec: `list_remove_producer` atomically decrements the
producer counter; the wake-up of blocked consumers when it reaches zero has
no effect on the sequential state. -/
def list_remove_producer (l : GwList) : GwList :=
  { l with producer_count := l.producer_count - 1 }

/-- Modelled from the spec: `list_producer_count` returns the current number
of registered producers. -/
def list_producer_count (l : GwList) : Nat := l.producer_count

/-- Modelled from the spec: `list_produce` adds the produced item to the end
of the list; the wake-up of blocked consumers has no effect on the
sequential state; a NULL item is a fatal precondition violation, modelled as
`none`. -/
def list_produce (l : GwList) (item : Item) : Option GwList :=
  if item = 0 then none else some { l with items := l.items ++ [item] }

/-- The observable outcome of one `list_consume` call: a removed item
together with the updated container, the NULL sentinel together with the
container state, or suspension of the calling thread. -/
inductive ConsumeResult where
  | item : Item → GwList → ConsumeResult
  | empty : GwList → ConsumeResult
  | blocked : ConsumeResult
  deriving DecidableEq, Repr

/-- Modelled from the spec: `list_consume` checks, under the container's
lock: if the length is positive it removes and returns item 0 (FIFO);
otherwise, if the producer count is zero, it returns the NULL sentinel
immediately; otherwise the calling thread suspends until woken. -/
def list_consume (l : GwList) : ConsumeResult :=
  match l.items with
  | x :: rest => .item x { l with items := rest }
  | [] => if l.producer_count = 0 then .empty l else .blocked

/-- Modelled from the spec: the read `list_len` as a state transformer,
returning the count together with the container state after the call. -/
def list_len_op (l : GwList) : Nat × GwList := (l.items.length, l)

/-- Modelled from the spec: the read `list_get` as a state transformer,
returning the item at `pos` together with the container state after the
call. -/
def list_get_op (l : GwList) (pos : Nat) : Option Item × GwList :=
  (l.items[pos]?, l)

/-- Modelled from the spec: the read `list_producer_count` as a state
transformer, returning the producer count together with the container state
after the call. -/
def list_producer_count_op (l : GwList) : Nat × GwList := (l.producer_count, l)

/-- One state-changing call on a single container, for stating properties of
arbitrary call sequences. -/
inductive SeqOp where
  | append (item : Item)
  | insert (pos : Nat) (item : Item)
  | delete (pos count : Nat)
  | deleteAll (pat : Item) (cmp : Item → Item → Bool)
  | deleteEqual (item : Item)
  | extractFirst
  | extractAll (pat : Item) (cmp : Item → Item → Bool)
  | produce (item : Item)
  | consume
  | addProducer
  | removeProducer

/-- Apply one call to the container state; `none` models a fatal
precondition violation, and a `consume` that would suspend leaves the state
unchanged (suspension does not modify the container). -/
def applySeqOp (l : GwList) : SeqOp → Option GwList
  | .append item => list_append l item
  | .insert pos item => list_insert l pos item
  | .delete pos count => list_delete l pos count
  | .deleteAll pat cmp => some (list_delete_all l pat cmp)
  | .deleteEqual item => some (list_delete_equal l item)
  | .extractFirst => some (list_extract_first l).2
  | .extractAll pat cmp => some (list_extract_all l pat cmp).2
  | .produce item => list_produce l item
  | .consume =>
    match list_consume l with
    | .item _ l2 => some l2
    | .empty l2 => some l2
    | .blocked => some l
  | .addProducer => some (list_add_producer l)
  | .removeProducer => some (list_remove_producer l)

/-- Run a sequence of calls from a starting state; `none` when some call
violates its precondition. -/
def runSeqOps (l : GwList) : List SeqOp → Option GwList
  | [] => some l
  | op :: rest =>
    match applySeqOp l op with
    | none => none
    | some l2 => runSeqOps l2 rest

/-- The container invariant from the spec: no stored reference is NULL.
The other invariant clauses — `length ≥ 0`, `producer_count ≥ 0` — hold by
the choice of `Nat` for lengths and counts, and `length` equals the number
of stored references by the derived definition of `list_len`. -/
abbrev GwInv (l : GwList) : Prop := ∀ x ∈ l.items, x ≠ 0

/-- The item sequence denoted by a search or extract result: the NULL
sentinel denotes the empty sequence. -/
def resultItems : Option GwList → List Item
  | none => []
  | some l => l.items

theorem extractPass_fst (p : Item → Bool) (xs : List Item) :
    (extractPass p xs).1 = xs.filter p := by
  induction xs with
  | nil => rfl
  | cons x rest ih =>
    simp only [extractPass, List.filter]
    cases hp : p x <;> simp [hp, ih]

theorem extractPass_snd (p : Item → Bool) (xs : List Item) :
    (extractPass p xs).2 = xs.filter (fun x => !p x) := by
  induction xs with
  | nil => rfl
  | cons x rest ih =>
    simp only [extractPass, List.filter]
    cases hp : p x <;> simp [hp, ih]

theorem extractPass_eq (p : Item → Bool) (xs : List Item) :
    extractPass p xs = (xs.filter p, xs.filter fun x => !p x) := by
  rw [Prod.ext_iff]
  exact ⟨extractPass_fst p xs, extractPass_snd p xs⟩

theorem list_search_all_eq (l : GwList) (pat : Item) (cmp : Item → Item → Bool) :
    list_search_all l pat cmp =
      match l.items.filter (fun x => cmp x pat) with
      | [] => none
      | m => some ⟨m, 0⟩ := by
  unfold list_search_all
  rw [extractPass_fst]

theorem list_extract_all_eq (l : GwList) (pat : Item) (cmp : Item → Item → Bool) :
    list_extract_all l pat cmp =
      match (l.items.filter (fun x => cmp x pat), l.items.filter fun x => !cmp x pat) with
      | ([], _) => (none, l)
      | (m, r) => (some ⟨m, 0⟩, { l with items := r }) := by
  unfold list_extract_all
  rw [extractPass_eq]

/-- C1: `list_consume` removes and returns element 0 (FIFO) whenever the
length is positive; when the list is empty and there are no producers it
returns the NULL sentinel immediately with the container state unchanged;
and the sentinel is returned only in that second case. -/
theorem list_consume_spec (l : GwList) :
    (∀ x rest, l.items = x :: rest →
      list_consume l = .item x { l with items := rest }) ∧
    (l.items = [] → l.producer_count = 0 → list_consume l = .empty l) ∧
    (∀ l2, list_consume l = .empty l2 →
      l.items = [] ∧ l.producer_count = 0 ∧ l2 = l) := by
  obtain ⟨items, pc⟩ := l
  refine ⟨?_, ?_, ?_⟩
  · rintro x rest rfl
    rfl
  · rintro rfl rfl
    rfl
  · intro l2 h
    cases items with
    | cons x rest => simp [list_consume] at h
    | nil =>
      simp only [list_consume] at h
      by_cases hpc : pc = 0
      · rw [if_pos hpc] at h
        cases h
        exact ⟨rfl, hpc, rfl⟩
      · rw [if_neg hpc] at h
        cases h

/-- C1 witness: the consume specification evaluated at two concrete
containers, a non-empty one and an empty one with no producers. -/
theorem list_consume_spec_witness :
    list_consume ⟨[3, 4], 1⟩ = .item 3 ⟨[4], 1⟩ ∧
    list_consume ⟨[], 0⟩ = .empty ⟨[], 0⟩ :=
  ⟨(list_consume_spec ⟨[3, 4], 1⟩).1 3 [4] rfl,
   (list_consume_spec ⟨[], 0⟩).2.1 rfl rfl⟩

/-- C5: `list_extract_first` removes and returns element 0 when the list is
non-empty, and returns the NULL sentinel without blocking when the list has
no elements; an empty list is left unchanged, and the sentinel is a normal
outcome returned exactly when the list is empty. -/
theorem list_extract_first_spec (l : GwList) :
    (l.items = [] → list_extract_first l = (none, l)) ∧
    (∀ x rest, l.items = x :: rest →
      list_extract_first l = (some x, { l with items := rest })) ∧
    ((list_extract_first l).1 = none →
      (list_extract_first l).2 = l ∧ l.items = []) := by
  obtain ⟨items, pc⟩ := l
  refine ⟨?_, ?_, ?_⟩
  · rintro rfl
    rfl
  · rintro x rest rfl
    rfl
  · cases items with
    | nil => intro _; exact ⟨rfl, rfl⟩
    | cons x rest => intro h; simp [list_extract_first] at h

/-- C5 witness: the extract-first specification evaluated at an empty and at
a non-empty concrete container. -/
theorem list_extract_first_spec_witness :
    list_extract_first ⟨[], 5⟩ = (none, ⟨[], 5⟩) ∧
    list_extract_first ⟨[9, 8], 0⟩ = (some 9, ⟨[8], 0⟩) :=
  ⟨(list_extract_first_spec ⟨[], 5⟩).1 rfl,
   (list_extract_first_spec ⟨[9, 8], 0⟩).2.1 9 [8] rfl⟩

/-- C7: `list_cat` appends all of the second list's elements, in order,
after the first list's elements, and returns the first list (keeping its
producer state); the second list is consumed by the call, its contents
surviving only in the returned list. -/
theorem list_cat_spec (l1 l2 : GwList) :
    (list_cat l1 l2).items = l1.items ++ l2.items ∧
    (list_cat l1 l2).producer_count = l1.producer_count ∧
    list_len (list_cat l1 l2) = list_len l1 + list_len l2 := by
  refine ⟨rfl, rfl, ?_⟩
  simp [list_cat, list_len]

/-- C9: for a non-null item, `list_produce` and `list_append` are the same
transformer of the container state: both add the item at the end of the
sequence (the wake-up performed by produce does not change the sequential
state). -/
theorem list_produce_eq_append (l : GwList) (item : Item) (h : item ≠ 0) :
    list_produce l item = list_append l item := by
  simp [list_produce, list_append, h]

/-- C9 witness: produce and append agree at a concrete container and a
concrete non-null item. -/
theorem list_produce_eq_append_witness :
    (5 : Item) ≠ 0 ∧ list_produce ⟨[1], 2⟩ 5 = list_append ⟨[1], 2⟩ 5 :=
  ⟨by decide, list_produce_eq_append ⟨[1], 2⟩ 5 (by decide)⟩

/-- C10: the reads `list_len`, `list_get` at a valid position, and
`list_producer_count`, viewed as state transformers, leave the whole
container state — item sequence, order and producer count — unchanged,
while returning the same values as the pure reads. -/
theorem read_ops_frame (l : GwList) (pos : Nat) (hpos : pos < list_len l) :
    (list_len_op l).2 = l ∧ (list_get_op l pos).2 = l ∧
    (list_producer_count_op l).2 = l ∧
    (list_len_op l).1 = list_len l ∧
    (list_get_op l pos).1 = list_get l pos ∧
    (list_producer_count_op l).1 = list_producer_count l :=
  ⟨rfl, rfl, rfl, rfl, rfl, rfl⟩

theorem length_filter_not (p : Item → Bool) (xs : List Item) :
    (xs.filter fun x => !p x).length = xs.length - (xs.filter p).length := by
  induction xs with
  | nil => rfl
  | cons x rest ih =>
    have hle := List.length_filter_le p rest
    cases hp : p x <;> simp [List.filter, hp, ih] <;> omega

/-- C8: `list_delete_equal` removes all and only the elements whose pointer
value is identical to the given item, keeps the remaining elements in their
original relative order, and decreases the length by exactly the prior
number of identical references. -/
theorem list_delete_equal_spec (l : GwList) (item : Item) :
    (list_delete_equal l item).items = l.items.filter (fun x => x != item) ∧
    item ∉ (list_delete_equal l item).items ∧
    list_len (list_delete_equal l item) = list_len l - l.items.count item := by
  have hfil : (list_delete_equal l item).items
      = l.items.filter (fun x => !(x == item)) :=
    extractPass_snd (fun x => x == item) l.items
  refine ⟨hfil, ?_, ?_⟩
  · rw [hfil]
    simp
  · show (list_delete_equal l item).items.length
      = l.items.length - l.items.count item
    rw [hfil, List.count_eq_countP, List.countP_eq_length_filter]
    exact length_filter_not (fun x => x == item) l.items

/-- C3 counterexample: on the container holding the single item `1`, with
the always-true match predicate, `list_search_all` returns the element `1`,
while an identical copy is left empty by `list_extract_all`; so the elements
returned by `search_all` are not the elements remaining in the source after
`extract_all`. -/
theorem search_all_ne_extract_all_remainder :
    resultItems (list_search_all ⟨[1], 0⟩ 0 fun _ _ => true) ≠
      (list_extract_all ⟨[1], 0⟩ 0 fun _ _ => true).2.items := by
  decide

/-- C3 amended: `list_search_all` returns the same elements as
`list_extract_all` removes and returns from an identical copy, and
`list_extract_all` leaves exactly the non-matching elements behind in their
original relative order. -/
theorem search_all_extract_all_partition (l : GwList) (pat : Item)
    (cmp : Item → Item → Bool) :
    resultItems (list_search_all l pat cmp) =
      resultItems (list_extract_all l pat cmp).1 ∧
    (list_extract_all l pat cmp).2.items =
      l.items.filter (fun x => !cmp x pat) := by
  rw [list_search_all_eq, list_extract_all_eq]
  cases hf : l.items.filter (fun x => cmp x pat) with
  | nil =>
    refine ⟨rfl, ?_⟩
    show l.items = _
    refine (List.filter_eq_self.mpr ?_).symm
    intro a ha
    simpa using List.filter_eq_nil_iff.mp hf a ha
  | cons x m =>
    exact ⟨rfl, rfl⟩

/-- C6: `list_extract_all` removes every matching element and returns them
as a new container preserving their relative order, leaving the source with
exactly the non-matching elements; when no element matches it returns the
NULL sentinel, the source is unchanged, and no new container is produced. -/
theorem list_extract_all_spec (l : GwList) (pat : Item) (cmp : Item → Item → Bool) :
    (list_extract_all l pat cmp).2.items = l.items.filter (fun x => !cmp x pat) ∧
    (∀ r, (list_extract_all l pat cmp).1 = some r →
      r.items = l.items.filter (fun x => cmp x pat)) ∧
    (l.items.filter (fun x => cmp x pat) = [] →
      list_extract_all l pat cmp = (none, l)) := by
  rw [list_extract_all_eq]
  cases hf : l.items.filter (fun x => cmp x pat) with
  | nil =>
    refine ⟨?_, ?_, fun _ => rfl⟩
    · show l.items = _
      refine (List.filter_eq_self.mpr ?_).symm
      intro a ha
      simpa using List.filter_eq_nil_iff.mp hf a ha
    · intro r h
      exact Option.noConfusion h
  | cons x m =>
    refine ⟨rfl, ?_, ?_⟩
    · intro r h
      cases h
      rfl
    · intro h
      exact absurd h (List.cons_ne_nil x m)

/-- C6 witness: extract-all evaluated at a container with matches (the even
items of `[1, 2, 3, 4]`) and at a container without matches. -/
theorem list_extract_all_spec_witness :
    (list_extract_all ⟨[1, 2, 3, 4], 0⟩ 0 fun x _ => x % 2 == 0).2.items = [1, 3] ∧
    (⟨[2, 4], 0⟩ : GwList).items = [2, 4] ∧
    list_extract_all ⟨[1, 3], 0⟩ 0 (fun x _ => x % 2 == 0) = (none, ⟨[1, 3], 0⟩) := by
  have h1 := list_extract_all_spec ⟨[1, 2, 3, 4], 0⟩ 0 (fun x _ => x % 2 == 0)
  have h2 := list_extract_all_spec ⟨[1, 3], 0⟩ 0 (fun x _ => x % 2 == 0)
  exact ⟨h1.1.trans (by decide),
    (h1.2.1 ⟨[2, 4], 0⟩ (by decide)).trans (by decide),
    h2.2.2 (by decide)⟩

/-- C10 witness: the frame property of the reads evaluated at a concrete
container and a valid position. -/
theorem read_ops_frame_witness :
    0 < list_len ⟨[4], 1⟩ ∧ (list_get_op ⟨[4], 1⟩ 0).2 = ⟨[4], 1⟩ ∧
    (list_len_op ⟨[4], 1⟩).2 = ⟨[4], 1⟩ :=
  ⟨by decide, (read_ops_frame ⟨[4], 1⟩ 0 (by decide)).2.1,
   (read_ops_frame ⟨[4], 1⟩ 0 (by decide)).1⟩

/-- C4: for `pos` in `[0, length]` (inserting at `length` appends) and a
non-null item, `list_insert` makes the item element `pos` — a subsequent
`list_get` at `pos` returns it — keeps the elements before `pos` in place,
and shifts every element previously at a position `≥ pos` to the next
position; a `pos` beyond `length` is a fatal precondition violation. -/
theorem list_insert_spec (l : GwList) (pos : Nat) (item : Item)
    (hitem : item ≠ 0) (hpos : pos ≤ list_len l) :
    (∃ l2, list_insert l pos item = some l2 ∧
      list_get l2 pos = some item ∧
      (∀ i, i < pos → list_get l2 i = list_get l i) ∧
      (∀ i, pos ≤ i → list_get l2 (i + 1) = list_get l i)) ∧
    (∀ q, list_len l < q → list_insert l q item = none) := by
  have hpos' : pos ≤ l.items.length := hpos
  have ht : (l.items.take pos).length = pos := by
    rw [List.length_take]
    omega
  constructor
  · refine ⟨{ l with items := l.items.take pos ++ item :: l.items.drop pos },
      ?_, ?_, ?_, ?_⟩
    · unfold list_insert
      rw [if_neg hitem, if_pos hpos']
    · show (l.items.take pos ++ item :: l.items.drop pos)[pos]? = some item
      rw [List.getElem?_append_right (by omega), ht]
      simp
    · intro i hi
      show (l.items.take pos ++ item :: l.items.drop pos)[i]? = l.items[i]?
      rw [List.getElem?_append_left (by omega)]
      exact List.getElem?_take_of_lt hi
    · intro i hi
      show (l.items.take pos ++ item :: l.items.drop pos)[i + 1]? = l.items[i]?
      rw [List.getElem?_append_right (by omega)]
      have hidx : i + 1 - (l.items.take pos).length = (i - pos) + 1 := by omega
      rw [hidx, List.getElem?_cons_succ, List.getElem?_drop]
      congr 1
      omega
  · intro q hq
    have hq' : l.items.length < q := hq
    unfold list_insert
    rw [if_neg hitem, if_neg (by omega : ¬ q ≤ l.items.length)]

/-- C4 witness: inserting `7` at position `1` of `[5, 6]` yields `[5, 7, 6]`
and satisfies the whole insert specification, while any position beyond the
length is rejected. -/
theorem list_insert_spec_witness :
    1 ≤ list_len ⟨[5, 6], 0⟩ ∧
    ((∃ l2, list_insert ⟨[5, 6], 0⟩ 1 7 = some l2 ∧
        list_get l2 1 = some 7 ∧
        (∀ i, i < 1 → list_get l2 i = list_get ⟨[5, 6], 0⟩ i) ∧
        (∀ i, 1 ≤ i → list_get l2 (i + 1) = list_get ⟨[5, 6], 0⟩ i)) ∧
      ∀ q, list_len ⟨[5, 6], 0⟩ < q → list_insert ⟨[5, 6], 0⟩ q 7 = none) :=
  ⟨by decide, list_insert_spec ⟨[5, 6], 0⟩ 1 7 (by decide) (by decide)⟩

theorem list_extract_all_snd_mem {l : GwList} {pat : Item}
    {cmp : Item → Item → Bool} {x : Item}
    (hx : x ∈ (list_extract_all l pat cmp).2.items) : x ∈ l.items := by
  rw [list_extract_all_eq] at hx
  cases hf : l.items.filter (fun y => cmp y pat) with
  | nil =>
    rw [hf] at hx
    exact hx
  | cons y m =>
    rw [hf] at hx
    change x ∈ l.items.filter (fun y => !cmp y pat) at hx
    exact List.mem_of_mem_filter hx

theorem applySeqOp_inv {l l2 : GwList} {op : SeqOp} (hInv : GwInv l)
    (h : applySeqOp l op = some l2) : GwInv l2 := by
  cases op with
  | append item =>
    by_cases hi : item = 0
    · simp [applySeqOp, list_append, hi] at h
    · simp only [applySeqOp, list_append, if_neg hi, Option.some.injEq] at h
      subst h
      intro x hx
      simp only [List.concat_eq_append, List.mem_append, List.mem_singleton] at hx
      rcases hx with hx | rfl
      · exact hInv x hx
      · exact hi
  | insert pos item =>
    by_cases hi : item = 0
    · simp [applySeqOp, list_insert, hi] at h
    · by_cases hp : pos ≤ l.items.length
      · simp only [applySeqOp, list_insert, if_neg hi, if_pos hp,
          Option.some.injEq] at h
        subst h
        intro x hx
        simp only [List.mem_append, List.mem_cons] at hx
        rcases hx with hx | rfl | hx
        · exact hInv x (List.take_subset _ _ hx)
        · exact hi
        · exact hInv x (List.drop_subset _ _ hx)
      · simp [applySeqOp, list_insert, hi, hp] at h
  | delete pos count =>
    by_cases hp : pos + count ≤ l.items.length
    · simp only [applySeqOp, list_delete, if_pos hp, Option.some.injEq] at h
      subst h
      intro x hx
      rcases List.mem_append.mp hx with hx | hx
      · exact hInv x (List.take_subset _ _ hx)
      · exact hInv x (List.drop_subset _ _ hx)
    · simp [applySeqOp, list_delete, hp] at h
  | deleteAll pat cmp =>
    simp only [applySeqOp, Option.some.injEq] at h
    subst h
    intro x hx
    have hfil : (list_delete_all l pat cmp).items
        = l.items.filter (fun y => !cmp y pat) := extractPass_snd _ _
    rw [hfil] at hx
    exact hInv x (List.mem_of_mem_filter hx)
  | deleteEqual item =>
    simp only [applySeqOp, Option.some.injEq] at h
    subst h
    intro x hx
    have hfil : (list_delete_equal l item).items
        = l.items.filter (fun y => !(y == item)) := extractPass_snd _ _
    rw [hfil] at hx
    exact hInv x (List.mem_of_mem_filter hx)
  | extractFirst =>
    obtain ⟨items, pc⟩ := l
    cases items with
    | nil =>
      simp only [applySeqOp, list_extract_first, Option.some.injEq] at h
      subst h
      exact hInv
    | cons y rest =>
      simp only [applySeqOp, list_extract_first, Option.some.injEq] at h
      subst h
      intro x hx
      exact hInv x (List.mem_cons_of_mem y hx)
  | extractAll pat cmp =>
    simp only [applySeqOp, Option.some.injEq] at h
    subst h
    intro x hx
    exact hInv x (list_extract_all_snd_mem hx)
  | produce item =>
    by_cases hi : item = 0
    · simp [applySeqOp, list_produce, hi] at h
    · simp only [applySeqOp, list_produce, if_neg hi, Option.some.injEq] at h
      subst h
      intro x hx
      rcases List.mem_append.mp hx with hx | hx
      · exact hInv x hx
      · rw [List.mem_singleton.mp hx]
        exact hi
  | consume =>
    obtain ⟨items, pc⟩ := l
    cases items with
    | cons y rest =>
      simp only [applySeqOp, list_consume, Option.some.injEq] at h
      subst h
      intro x hx
      exact hInv x (List.mem_cons_of_mem y hx)
    | nil =>
      by_cases hpc : pc = 0 <;>
        simp only [applySeqOp, list_consume, hpc, if_true, if_false,
          Option.some.injEq] at h <;>
        subst h <;> exact hInv
  | addProducer =>
    simp only [applySeqOp, Option.some.injEq] at h
    subst h
    exact hInv
  | removeProducer =>
    simp only [applySeqOp, Option.some.injEq] at h
    subst h
    exact hInv

theorem runSeqOps_inv (ops : List SeqOp) :
    ∀ l l2 : GwList, GwInv l → runSeqOps l ops = some l2 → GwInv l2 := by
  induction ops with
  | nil =>
    intro l l2 hInv h
    injection h with h
    exact h ▸ hInv
  | cons op rest ih =>
    intro l l2 hInv h
    simp only [runSeqOps] at h
    rcases hA : applySeqOp l op with _ | l3 <;> rw [hA] at h
    · exact Option.noConfusion h
    · exact ih l3 l2 (applySeqOp_inv hInv hA) h

/-- C2: along any sequence of state-changing operations the container
invariants are preserved: starting from a state with no NULL reference, no
stored reference is ever NULL; the length always equals the number of
stored references (and, being a `Nat`, it is never negative, as is the
producer count); and `list_get` at every `i` below the length returns
exactly the element at logical position `i`. -/
theorem seq_ops_preserve_invariants (l : GwList) (ops : List SeqOp) (l2 : GwList)
    (hInv : GwInv l) (h : runSeqOps l ops = some l2) :
    GwInv l2 ∧ list_len l2 = l2.items.length ∧
    ∀ i (hi : i < list_len l2), list_get l2 i = some (l2.items.get ⟨i, hi⟩) := by
  refine ⟨runSeqOps_inv ops l l2 hInv h, rfl, ?_⟩
  intro i hi
  show l2.items[i]? = some (l2.items.get ⟨i, hi⟩)
  rw [List.getElem?_eq_getElem hi, List.get_eq_getElem]

/-- C2 witness: the invariants evaluated after a concrete sequence of
append, insert and delete operations starting from the container `[1]`. -/
theorem seq_ops_preserve_invariants_witness :
    GwInv ⟨[3, 2], 0⟩ ∧ list_len ⟨[3, 2], 0⟩ = 2 ∧
    list_get ⟨[3, 2], 0⟩ 0 = some 3 := by
  have h := seq_ops_preserve_invariants ⟨[1], 0⟩
    [.append 2, .insert 1 3, .delete 0 1] ⟨[3, 2], 0⟩ (by decide) (by decide)
  exact ⟨h.1, h.2.1, (h.2.2 0 (by decide)).trans (by decide)⟩

end Gwlist
